import Mathlib

/-!
# Verification of the `aioconveyor2` timed producer/consumer conveyor

Shallow embedding of `src/aioconveyor/aioconveyor2.py` (class `AioGenConveyor`).
Wall-clock times (Python `float` seconds) are modelled as rationals `ℚ`, so the
arithmetic of the scheduler is exact; Python's float floor-division `//` becomes
`Int.floor` of the rational quotient.  Loop counters are `ℕ`.
-/

/-- The `Event` dataclass from the source: a timestamp and a loop counter.
`event_time` is the POSIX timestamp (the `t_event` value the `datetime` is built
from); `loop_counter` the ordinal of the realized tick. -/
structure Event where
  event_time : ℚ
  loop_counter : ℕ
  deriving Repr, DecidableEq

/-- Method `AioGenConveyor.loop_time`: next absolute time for the loop timer.
Source:
`t0 = (t_now // loop_interval) * loop_interval + loop_offset`;
`if t0 <= t_now: t0 += loop_interval`; `return t0`. -/
def loop_time (loop_interval loop_offset t_now : ℚ) : ℚ :=
  let t0 : ℚ := (⌊t_now / loop_interval⌋ : ℚ) * loop_interval + loop_offset
  if t0 ≤ t_now then t0 + loop_interval else t0

/-- For positive `I`, `t_now < ⌊t_now / I⌋ * I + I`: the floor multiple one step up
is strictly in the future. -/
lemma lt_floor_succ_mul (I t : ℚ) (hI : 0 < I) :
    t < ((⌊t / I⌋ : ℚ) + 1) * I := by
  have h := Int.lt_floor_add_one (t / I)
  calc t = t / I * I := by field_simp
  _ < ((⌊t / I⌋ : ℚ) + 1) * I := by
        exact mul_lt_mul_of_pos_right h hI

/-- If `r = m * I + o` with `0 ≤ o < I`, then `⌊r / I⌋ = m`. -/
lemma floor_div_of_eq_mul_add (I o : ℚ) (m : ℤ) (hI : 0 < I)
    (h0 : 0 ≤ o) (h1 : o < I) : ⌊((m : ℚ) * I + o) / I⌋ = m := by
  have hI' : I ≠ 0 := ne_of_gt hI
  have hq : ((m : ℚ) * I + o) / I = o / I + (m : ℚ) := by
    field_simp
    ring
  rw [hq]
  have hfrac : ⌊o / I⌋ = 0 := by
    refine Int.floor_eq_zero_iff.mpr ?_
    constructor
    · exact div_nonneg h0 (le_of_lt hI)
    · exact (div_lt_one hI).mpr h1
  rw [Int.floor_add_int, hfrac, zero_add]

/-- C1: `loop_time` returns a value strictly after `t_now`, and the result minus
the offset is an exact integer multiple of the interval. -/
theorem loop_time_future_and_aligned (loop_interval loop_offset t_now : ℚ)
    (hI : 0 < loop_interval) (h0 : 0 ≤ loop_offset)
    (h1 : loop_offset < loop_interval) :
    t_now < loop_time loop_interval loop_offset t_now ∧
    ∃ k : ℤ, loop_time loop_interval loop_offset t_now - loop_offset
      = (k : ℚ) * loop_interval := by
  unfold loop_time
  set m : ℤ := ⌊t_now / loop_interval⌋ with hm
  by_cases hle : (m : ℚ) * loop_interval + loop_offset ≤ t_now
  · rw [if_pos hle]
    have hgrow : t_now < ((m : ℚ) + 1) * loop_interval := by
      rw [hm]
      exact lt_floor_succ_mul loop_interval t_now hI
    constructor
    · nlinarith
    · exact ⟨m + 1, by push_cast; ring⟩
  · rw [if_neg hle]
    constructor
    · exact lt_of_not_le hle
    · exact ⟨m, by ring⟩

/-- The claim applied at `interval = 5`, `offset = 2`, `now = 100`. -/
theorem loop_time_future_and_aligned_witness :
    0 < (5 : ℚ) ∧ 0 ≤ (2 : ℚ) ∧ (2 : ℚ) < 5 ∧
    ((100 : ℚ) < loop_time 5 2 100 ∧
      ∃ k : ℤ, loop_time 5 2 100 - 2 = (k : ℚ) * 5) :=
  ⟨by norm_num, by norm_num, by norm_num,
    loop_time_future_and_aligned 5 2 100 (by norm_num) (by norm_num) (by norm_num)⟩

/-- The result of `loop_time` always lands on the schedule grid:
it is `k * interval + offset` for some integer `k`. -/
lemma loop_time_exists_mul (I o t : ℚ) :
    ∃ k : ℤ, loop_time I o t = (k : ℚ) * I + o := by
  unfold loop_time
  set m : ℤ := ⌊t / I⌋ with hm
  by_cases hle : (m : ℚ) * I + o ≤ t
  · rw [if_pos hle]
    exact ⟨m + 1, by push_cast; ring⟩
  · rw [if_neg hle]
    exact ⟨m, rfl⟩

/-- On a grid point `m * I + o`, `loop_time` moves forward by exactly one
interval. -/
lemma loop_time_of_aligned (I o : ℚ) (m : ℤ) (hI : 0 < I)
    (h0 : 0 ≤ o) (h1 : o < I) :
    loop_time I o ((m : ℚ) * I + o) = (m : ℚ) * I + o + I := by
  unfold loop_time
  rw [floor_div_of_eq_mul_add I o m hI h0 h1, if_pos le_rfl]

/-- Iterating `loop_time` from a grid point advances by `j` intervals. -/
lemma loop_time_iterate_aligned (I o : ℚ) (m : ℤ) (hI : 0 < I)
    (h0 : 0 ≤ o) (h1 : o < I) (j : ℕ) :
    (loop_time I o)^[j] ((m : ℚ) * I + o) = (m : ℚ) * I + o + (j : ℚ) * I := by
  induction j with
  | zero => simp
  | succ j ih =>
    rw [Function.iterate_succ_apply', ih]
    have hrw : (m : ℚ) * I + o + (j : ℚ) * I = ((m + j : ℤ) : ℚ) * I + o := by
      push_cast
      ring
    rw [hrw, loop_time_of_aligned I o (m + j) hI h0 h1]
    push_cast
    ring

/-- C5: calling `loop_time` again with `t_now` set to a previous result yields
exactly `result + interval`, and iterating from each prior result produces an
arithmetic sequence spaced exactly `interval` apart (no drift). -/
theorem loop_time_no_drift (I o t : ℚ) (hI : 0 < I) (h0 : 0 ≤ o) (h1 : o < I) :
    loop_time I o (loop_time I o t) = loop_time I o t + I ∧
    ∀ j : ℕ, (loop_time I o)^[j] (loop_time I o t) = loop_time I o t + (j : ℚ) * I := by
  obtain ⟨k, hk⟩ := loop_time_exists_mul I o t
  constructor
  · rw [hk, loop_time_of_aligned I o k hI h0 h1]
  · intro j
    rw [hk, loop_time_iterate_aligned I o k hI h0 h1 j]

/-- The no-drift claim applied at `interval = 5`, `offset = 2`, `now = 100`. -/
theorem loop_time_no_drift_witness :
    0 < (5 : ℚ) ∧ 0 ≤ (2 : ℚ) ∧ (2 : ℚ) < 5 ∧
    loop_time 5 2 (loop_time 5 2 100) = loop_time 5 2 100 + 5 :=
  ⟨by norm_num, by norm_num, by norm_num,
    (loop_time_no_drift 5 2 100 (by norm_num) (by norm_num) (by norm_num)).1⟩

/-- C9: the four concrete clock values from the spec. -/
theorem loop_time_concrete :
    loop_time 5 0 100 = 105 ∧ loop_time 5 2 100 = 102 ∧
    loop_time 5 2 101 = 102 ∧ loop_time 5 2 103 = 107 := by
  refine ⟨?_, ?_, ?_, ?_⟩ <;> norm_num [loop_time]

/-- Method `AioGenConveyor.event_generator`: one list entry per loop iteration, carrying
the scheduled time `t_event` (from `loop_generator`) and the wall clock `t_now`
read when `delta = t_event - time()` is computed.  If `delta < 0` the iteration
logs, sleeps `0.2` and `continue`s — no event, counter untouched; otherwise it
sleeps `delta`, yields `Event(event_time, loop_counter)` and increments the
counter. -/
def event_generator : List (ℚ × ℚ) → ℕ → List Event
  | [], _ => []
  | (t_event, t_now) :: ticks, loop_counter =>
    if t_event - t_now < 0 then
      event_generator ticks loop_counter
    else
      { event_time := t_event, loop_counter := loop_counter } ::
        event_generator ticks (loop_counter + 1)

/-- Starting the event generator at counter `c`, the emitted counters are the
consecutive block `c, c+1, ...` of length the number of emitted events. -/
lemma event_generator_counters (ticks : List (ℚ × ℚ)) (c : ℕ) :
    (event_generator ticks c).map Event.loop_counter
      = List.range' c (event_generator ticks c).length := by
  induction ticks generalizing c with
  | nil => simp [event_generator]
  | cons p ticks ih =>
    obtain ⟨t_event, t_now⟩ := p
    by_cases h : t_event - t_now < 0
    · simp only [event_generator, if_pos h]
      exact ih c
    · simp only [event_generator, if_neg h, List.map_cons, List.length_cons,
        List.range'_succ]
      exact congrArg _ (ih (c + 1))

/-- C2: a past-due tick (`delta < 0`) emits no event and leaves the counter
unchanged, and the `loop_counter` values of successive emitted events are
exactly `0, 1, 2, ...` with no gaps. -/
theorem event_generator_counter_spec :
    (∀ (t_event t_now : ℚ) (ticks : List (ℚ × ℚ)) (c : ℕ),
      t_event - t_now < 0 →
        event_generator ((t_event, t_now) :: ticks) c = event_generator ticks c) ∧
    ∀ ticks : List (ℚ × ℚ),
      (event_generator ticks 0).map Event.loop_counter
        = List.range (event_generator ticks 0).length := by
  constructor
  · intro t_event t_now ticks c h
    simp only [event_generator, if_pos h]
  · intro ticks
    rw [List.range_eq_range']
    exact event_generator_counters ticks 0

/-- The skip clause applied at a concrete past-due tick, and the counter
invariant evaluated on a concrete run with one skipped tick in the middle. -/
theorem event_generator_counter_spec_witness :
    ((1 : ℚ) - 2 < 0 ∧
      event_generator [((1 : ℚ), (2 : ℚ))] 0 = event_generator [] 0) ∧
    (event_generator [(10, 5), (3, 7), (8, 6)] 0).map Event.loop_counter
      = List.range (event_generator [(10, 5), (3, 7), (8, 6)] 0).length :=
  ⟨⟨by norm_num, event_generator_counter_spec.1 1 2 [] 0 (by norm_num)⟩,
    event_generator_counter_spec.2 [(10, 5), (3, 7), (8, 6)]⟩

/-- One round of the fan-out in `AioGenConveyor.consumer_loop`:
`cons_tasks = [asyncio.create_task(c(event, payload)) for c in self.consumers]`
followed by `results = await asyncio.gather(*cons_tasks)`, which returns the
consumer results in task (= registration) order. -/
def consumer_fanout {P R : Type} (consumers : List (Event → P → R))
    (event : Event) (payload : P) : List R :=
  consumers.map fun consume => consume event payload

/-- C4: every registered consumer is invoked with the identical
`(event, payload)` pair, and the joined result list has one entry per consumer,
ordered to match registration order. -/
theorem consumer_fanout_spec {P R : Type} (consumers : List (Event → P → R))
    (event : Event) (payload : P) :
    (consumer_fanout consumers event payload).length = consumers.length ∧
    ∀ i : ℕ, (consumer_fanout consumers event payload)[i]?
      = consumers[i]?.map fun consume => consume event payload := by
  refine ⟨by simp [consumer_fanout], fun i => ?_⟩
  simp [consumer_fanout]

/-- Semantics of `asyncio.Queue.put`: append the item at the back of the queue. -/
def queue_put {α : Type} (queue : List α) (item : α) : List α := queue ++ [item]

/-- Semantics of `asyncio.Queue.get`: take the item at the front of the queue, if any. -/
def queue_get {α : Type} : List α → Option (α × List α)
  | [] => none
  | item :: rest => some (item, rest)

/-- Repeatedly `queue_get` until the queue is empty, collecting the items in
dequeue order (this is what `consumer_loop` observes). -/
def queue_drain {α : Type} : List α → List α
  | [] => []
  | item :: rest => item :: queue_drain rest

/-- Enqueueing a batch is appending it, in order. -/
lemma foldl_queue_put {α : Type} (queue : List α) (items : List α) :
    List.foldl queue_put queue items = queue ++ items := by
  induction items generalizing queue with
  | nil => simp [List.foldl]
  | cons item items ih => simp [List.foldl, queue_put, ih]

/-- Draining returns the queue contents front to back. -/
lemma queue_drain_eq {α : Type} (queue : List α) : queue_drain queue = queue := by
  induction queue with
  | nil => rfl
  | cons item rest ih => simp [queue_drain, ih]

/-- C6: the queue is FIFO end to end — enqueueing the production stage's
`(event, payload)` items in order and draining them from the consumption stage
yields the same sequence, so the n-th item enqueued is the n-th item dequeued. -/
theorem queue_fifo (items : List (Event × String)) :
    queue_drain (List.foldl queue_put [] items) = items ∧
    ∀ n : ℕ, (queue_drain (List.foldl queue_put [] items))[n]? = items[n]? := by
  have h : queue_drain (List.foldl queue_put [] items) = items := by
    rw [foldl_queue_put, List.nil_append, queue_drain_eq]
  exact ⟨h, fun n => by rw [h]⟩

/-- Method `AioGenConveyor.production_scheduler` over a finite prefix of the event
stream, with the producer's outcome made explicit as `Except`:
`async for event: payload = await self.produce(event); await queue.put((event,
payload))`.  A raising `produce` call terminates the loop at once — the failing
event is not enqueued, not retried, and no later event is processed; the
exception is returned for the supervisor's join. -/
def production_scheduler {E P : Type} (produce : Event → Except E P) :
    List Event → List (Event × P) × Option E
  | [] => ([], none)
  | event :: events =>
    match produce event with
    | .error err => ([], some err)
    | .ok payload =>
      let rest := production_scheduler produce events
      ((event, payload) :: rest.1, rest.2)

/-- Semantics of `await asyncio.gather(*cons_tasks)` with `return_exceptions = False`: the
first raising task's exception propagates; otherwise all results are returned
in order. -/
def gather_results {E R : Type} : List (Except E R) → Except E (List R)
  | [] => .ok []
  | .error err :: _ => .error err
  | .ok r :: rest => (gather_results rest).map (r :: ·)

/-- One iteration of `AioGenConveyor.consumer_loop` past the dequeue: invoke
every registered consumer with the dequeued `(event, payload)` and join. -/
def consumer_step {E P R : Type} (consumers : List (Event → P → Except E R))
    (event : Event) (payload : P) : Except E (List R) :=
  gather_results (consumers.map fun consume => consume event payload)

/-- Method `AioGenConveyor.consumer_loop` over a finite list of dequeued items: each
item is fanned out and joined; a raising join terminates the loop with the
exception, processing no further item. -/
def consumer_loop {E P R : Type} (consumers : List (Event → P → Except E R)) :
    List (Event × P) → List (List R) × Option E
  | [] => ([], none)
  | (event, payload) :: items =>
    match consumer_step consumers event payload with
    | .error err => ([], some err)
    | .ok results =>
      let rest := consumer_loop consumers items
      (results :: rest.1, rest.2)

/-- The `finally: self.running = False` clause of `AioGenConveyor.launcher`:
once the `await asyncio.gather(...)` join has ended — normally or by an
exception (caught by the bare `except Exception`) — `running` is `false`;
while the join has not ended, `running` keeps its `true` value from `start`. -/
def launcher_running_after (join_ended : Bool) : Bool := !join_ended

/-- Lemma: `gather_results` propagates the first raising consumer's error. -/
lemma gather_results_error {E R : Type} (pre : List (Except E R)) (err : E)
    (post : List (Except E R)) (hok : ∀ r ∈ pre, ∃ v, r = .ok v) :
    gather_results (pre ++ .error err :: post) = .error err := by
  induction pre with
  | nil => rfl
  | cons r pre ih =>
    have hr := hok r (List.mem_cons_self r pre)
    obtain ⟨v, rfl⟩ := hr
    have htail : ∀ s ∈ pre, ∃ w, s = Except.ok w :=
      fun s hs => hok s (List.mem_cons_of_mem _ hs)
    simp only [List.cons_append, List.append_eq, gather_results, ih htail]
    rfl

/-- C3: a raising producer call terminates the production stage at the failing
event — exactly the events before it are enqueued, the failure propagates to
the join; a raising consumer join terminates the consumption stage at the
failing item likewise; any raising consumer makes the join raise; and an ended
join leaves `running = false`. -/
theorem fail_fast {E P R : Type} :
    (∀ (produce : Event → Except E P) (pre : List Event) (event : Event)
        (post : List Event) (err : E),
      (∀ ev ∈ pre, ∃ payload, produce ev = .ok payload) →
      produce event = .error err →
      (production_scheduler produce (pre ++ event :: post)).1.map Prod.fst = pre ∧
      (production_scheduler produce (pre ++ event :: post)).2 = some err) ∧
    (∀ (consumers : List (Event → P → Except E R)) (pre : List (Event × P))
        (item : Event × P) (post : List (Event × P)) (err : E),
      (∀ it ∈ pre, ∃ results, consumer_step consumers it.1 it.2 = .ok results) →
      consumer_step consumers item.1 item.2 = .error err →
      (consumer_loop consumers (pre ++ item :: post)).1.length = pre.length ∧
      (consumer_loop consumers (pre ++ item :: post)).2 = some err) ∧
    (∀ (okPre : List (Except E R)) (err : E) (tail : List (Except E R)),
      (∀ r ∈ okPre, ∃ v, r = .ok v) →
      gather_results (okPre ++ .error err :: tail) = .error err) ∧
    launcher_running_after true = false := by
  refine ⟨?_, ?_, fun okPre err tail h => gather_results_error okPre err tail h, rfl⟩
  · intro produce pre event post err hok herr
    induction pre with
    | nil =>
      simp [production_scheduler, herr]
    | cons ev pre ih =>
      obtain ⟨payload, hp⟩ := hok ev (List.mem_cons_self ev pre)
      have htail : ∀ e ∈ pre, ∃ q, produce e = Except.ok q :=
        fun e he => hok e (List.mem_cons_of_mem _ he)
      obtain ⟨ih1, ih2⟩ := ih htail
      refine ⟨?_, ?_⟩
      · simp only [List.cons_append, List.append_eq, production_scheduler, hp,
          List.map_cons]
        rw [ih1]
      · simp only [List.cons_append, List.append_eq, production_scheduler, hp]
        exact ih2
  · intro consumers pre item post err hok herr
    induction pre with
    | nil =>
      obtain ⟨event, payload⟩ := item
      simp [consumer_loop, herr]
    | cons it pre ih =>
      obtain ⟨results, hr⟩ := hok it (List.mem_cons_self it pre)
      have htail : ∀ s ∈ pre, ∃ rs, consumer_step consumers s.1 s.2
          = Except.ok rs :=
        fun s hs => hok s (List.mem_cons_of_mem _ hs)
      obtain ⟨ih1, ih2⟩ := ih htail
      obtain ⟨event, payload⟩ := it
      refine ⟨?_, ?_⟩
      · simp only [List.cons_append, List.append_eq, consumer_loop, hr,
          List.length_cons]
        rw [ih1]
      · simp only [List.cons_append, List.append_eq, consumer_loop, hr]
        exact ih2

/-- The fail-fast claim evaluated on the spec's scenario: a producer that
raises on the event with `loop_counter = 3` enqueues exactly the three earlier
events and propagates the error, and the ended join leaves `running = false`. -/
theorem fail_fast_witness :
    ((production_scheduler
        (fun ev => if ev.loop_counter = 3 then Except.error 13
          else Except.ok "payload")
        ([⟨0, 0⟩, ⟨1, 1⟩, ⟨2, 2⟩] ++ (⟨3, 3⟩ : Event) :: [])).1.map Prod.fst
      = [⟨0, 0⟩, ⟨1, 1⟩, ⟨2, 2⟩] ∧
    (production_scheduler
        (fun ev => if ev.loop_counter = 3 then Except.error 13
          else Except.ok "payload")
        ([⟨0, 0⟩, ⟨1, 1⟩, ⟨2, 2⟩] ++ (⟨3, 3⟩ : Event) :: [])).2 = some 13) ∧
    launcher_running_after true = false :=
  ⟨(fail_fast (R := Unit)).1
      (fun ev => if ev.loop_counter = 3 then Except.error 13
        else Except.ok "payload")
      [⟨0, 0⟩, ⟨1, 1⟩, ⟨2, 2⟩] ⟨3, 3⟩ [] 13
      (fun ev hev => ⟨"payload", by fin_cases hev <;> rfl⟩) rfl,
    (fail_fast (P := String) (R := Unit) (E := ℕ)).2.2.2⟩

/-- The wall-clock time of the watchdog's `k`-th check of `self.stopped`:
each loop iteration first does `await asyncio.sleep(1.5)`, so poll `k`
(zero-based) happens `(k + 1) * 1.5` seconds after the watchdog starts. -/
def pollTime (k : ℕ) : ℚ := 3 / 2 * ((k : ℚ) + 1)

/-- Method `AioGenConveyor.watchdog` run for `fuel` iterations of its `while True`
loop against the sequence `obs` of `self.stopped` values it observes at each
poll: `some k` when poll `k` observed `stopped` and the loop raised its
exception there, `none` when no poll so far observed `stopped` (the loop keeps
sleeping and incrementing `watchdog_loop_counter`). -/
def watchdog (obs : ℕ → Bool) : ℕ → Option ℕ
  | 0 => none
  | n + 1 =>
    match watchdog obs n with
    | some k => some k
    | none => if obs n then some n else none

/-- The watchdog raises only at a poll that observed `stopped = true`. -/
lemma watchdog_some_obs (obs : ℕ → Bool) :
    ∀ n k, watchdog obs n = some k → obs k = true := by
  intro n
  induction n with
  | zero =>
    intro k h
    simp [watchdog] at h
  | succ n ih =>
    intro k h
    unfold watchdog at h
    cases hw : watchdog obs n with
    | some j =>
      rw [hw] at h
      injection h with h2
      subst h2
      exact ih j hw
    | none =>
      rw [hw] at h
      cases ho : obs n with
      | true =>
        rw [ho] at h
        simp only [if_true] at h
        injection h with h2
        subst h2
        exact ho
      | false =>
        rw [ho] at h
        simp at h

/-- While no poll has observed `stopped`, the watchdog keeps running. -/
lemma watchdog_none (obs : ℕ → Bool) :
    ∀ n, (∀ j, j < n → obs j = false) → watchdog obs n = none := by
  intro n
  induction n with
  | zero => intro _; rfl
  | succ n ih =>
    intro h
    unfold watchdog
    rw [ih fun j hj => h j (Nat.lt_succ_of_lt hj)]
    rw [h n (Nat.lt_succ_self n)]
    simp

/-- The watchdog raises at the first poll observing `stopped = true`. -/
lemma watchdog_first (obs : ℕ → Bool) (k : ℕ) (hk : obs k = true)
    (hmin : ∀ j, j < k → obs j = false) :
    watchdog obs (k + 1) = some k := by
  unfold watchdog
  rw [watchdog_none obs k hmin, hk]
  simp

/-- C7: the watchdog raises exactly when a poll observes `stopped = true` (it
raises only at such a poll, and any observation of `stopped` makes it raise at
the first one); and once `stop()` has set `stopped` at time `T ≥ 0`, the
raising poll happens no later than `T + 1.5` — one polling interval — after
which the ended join leaves `running = false`. -/
theorem watchdog_stop_spec :
    (∀ (obs : ℕ → Bool) (n k : ℕ), watchdog obs n = some k → obs k = true) ∧
    (∀ (obs : ℕ → Bool) (k : ℕ), obs k = true →
      ∃ n j, j ≤ k ∧ watchdog obs n = some j) ∧
    (∀ T : ℚ, 0 ≤ T → ∃ k : ℕ,
      watchdog (fun j => decide (T ≤ pollTime j)) (k + 1) = some k ∧
      T ≤ pollTime k ∧ pollTime k ≤ T + 3 / 2) ∧
    launcher_running_after true = false := by
  refine ⟨watchdog_some_obs, ?_, ?_, rfl⟩
  · intro obs k hk
    have hEx : ∃ j, obs j = true := ⟨k, hk⟩
    refine ⟨Nat.find hEx + 1, Nat.find hEx, Nat.find_min' hEx hk, ?_⟩
    refine watchdog_first obs _ (Nat.find_spec hEx) fun j hj => ?_
    have := Nat.find_min hEx hj
    simpa using this
  · intro T hT
    have hEx : ∃ j : ℕ, T ≤ pollTime j := by
      refine ⟨⌈T⌉.toNat, ?_⟩
      have hceil : T ≤ (⌈T⌉.toNat : ℚ) := by
        have h1 : T ≤ (⌈T⌉ : ℚ) := Int.le_ceil T
        have h2 : (⌈T⌉.toNat : ℤ) = ⌈T⌉ := Int.toNat_of_nonneg (Int.ceil_nonneg hT)
        calc T ≤ ((⌈T⌉ : ℤ) : ℚ) := h1
        _ = ((⌈T⌉.toNat : ℤ) : ℚ) := by rw [h2]
        _ = (⌈T⌉.toNat : ℚ) := by push_cast; rfl
      have hpos : (0 : ℚ) ≤ (⌈T⌉.toNat : ℚ) := by positivity
      unfold pollTime
      nlinarith
    set k0 := Nat.find hEx with hk0
    have hspec : T ≤ pollTime k0 := Nat.find_spec hEx
    have hmin : ∀ j, j < k0 → ¬ T ≤ pollTime j := fun j hj => Nat.find_min hEx hj
    have hbound : pollTime k0 ≤ T + 3 / 2 := by
      cases hc : k0 with
      | zero =>
        unfold pollTime
        push_cast
        linarith
      | succ j =>
        have hprev : ¬ T ≤ pollTime j := hmin j (by omega)
        have hstep : pollTime (j + 1) = pollTime j + 3 / 2 := by
          unfold pollTime
          push_cast
          ring
        rw [hstep]
        have := lt_of_not_le hprev
        linarith
    refine ⟨k0, ?_, hspec, hbound⟩
    refine watchdog_first _ k0 (decide_eq_true hspec) fun j hj => ?_
    exact decide_eq_false (hmin j hj)

/-- The watchdog latency claim applied at stop time `T = 2`: the raising poll
is within `1.5` seconds of the stop request. -/
theorem watchdog_stop_spec_witness :
    (0 : ℚ) ≤ 2 ∧ ∃ k : ℕ,
      watchdog (fun j => decide ((2 : ℚ) ≤ pollTime j)) (k + 1) = some k ∧
      (2 : ℚ) ≤ pollTime k ∧ pollTime k ≤ 2 + 3 / 2 :=
  ⟨by norm_num, watchdog_stop_spec.2.2.1 2 (by norm_num)⟩

/-- Fate of one of the three stage tasks handed to `asyncio.gather` in
`AioGenConveyor.launcher`: it either runs forever, completes normally at some
time, or terminates with an exception at some time. -/
inductive TaskFate (E : Type) where
  | diverges : TaskFate E
  | completes : ℚ → TaskFate E
  | raises : E → ℚ → TaskFate E

/-- Time at which a task terminates by raising, if it does. -/
def TaskFate.raiseTime {E : Type} : TaskFate E → Option ℚ
  | .raises _ t => some t
  | _ => none

/-- Time at which a task completes normally, if it does. -/
def TaskFate.completeTime {E : Type} : TaskFate E → Option ℚ
  | .completes t => some t
  | _ => none

/-- Time at which a task terminates (normally or by raising), if it does. -/
def TaskFate.termTime {E : Type} : TaskFate E → Option ℚ
  | .completes t => some t
  | .raises _ t => some t
  | .diverges => none

/-- Minimum of a list of times, `none` when empty. -/
def minTime : List ℚ → Option ℚ
  | [] => none
  | t :: ts => some (ts.foldl min t)

/-- Maximum of a list of times, `none` when empty. -/
def maxTime : List ℚ → Option ℚ
  | [] => none
  | t :: ts => some (ts.foldl max t)

/-- Semantics of `await asyncio.gather(producer, consumer, watchdog)` with the default
`return_exceptions = False`: the await ends at the first raised exception; if
no task raises it ends only once every task has completed, at the last
completion time; it never ends while some task still runs and none has
raised. -/
def gather_ends {E : Type} (fates : List (TaskFate E)) : Option ℚ :=
  match minTime (fates.filterMap TaskFate.raiseTime) with
  | some t => some t
  | none =>
    if fates.all fun f => f.completeTime.isSome then
      maxTime (fates.filterMap TaskFate.completeTime)
    else none

/-- Observable outcome of `AioGenConveyor.launcher`: when (if ever) its
`gather` join ends, which of the awaited tasks it cancelled, and the `running`
flag after the `finally` clause. -/
structure LauncherOutcome (E : Type) where
  join_ends : Option ℚ
  cancelled : List Bool
  running : Bool

/-- Method `AioGenConveyor.launcher`: awaits the gather of the three stage tasks,
catches any exception, and in `finally` sets `self.running = False`.  The
source contains no `task.cancel()` call, so no awaited task is ever
cancelled by the supervisor. -/
def launcher {E : Type} (fates : List (TaskFate E)) : LauncherOutcome E :=
  { join_ends := gather_ends fates
    cancelled := fates.map fun _ => false
    running := launcher_running_after (gather_ends fates).isSome }

/-- Folding `min` from `a` returns `t` when `t` is among `a :: ts` and is a
lower bound of `a :: ts`. -/
lemma foldl_min_eq (ts : List ℚ) (a t : ℚ) (hmem : t = a ∨ t ∈ ts)
    (hla : t ≤ a) (hlb : ∀ v ∈ ts, t ≤ v) : ts.foldl min a = t := by
  induction ts generalizing a with
  | nil =>
    rcases hmem with rfl | h
    · rfl
    · exact absurd h (List.not_mem_nil t)
  | cons b ts ih =>
    have hab : t ≤ b := hlb b (List.mem_cons_self b ts)
    have hlb' : ∀ v ∈ ts, t ≤ v := fun v hv => hlb v (List.mem_cons_of_mem _ hv)
    have hmem' : t = min a b ∨ t ∈ ts := by
      rcases hmem with rfl | h
      · exact Or.inl (min_eq_left hab).symm
      · rcases List.mem_cons.mp h with rfl | h2
        · exact Or.inl (min_eq_right hla).symm
        · exact Or.inr h2
    simpa using ih (min a b) hmem' (le_min hla hab) hlb'

/-- Lemma: `minTime` returns `t` when `t` is a member and a lower bound. -/
lemma minTime_eq_some (l : List ℚ) (t : ℚ) (ht : t ∈ l)
    (hlb : ∀ v ∈ l, t ≤ v) : minTime l = some t := by
  cases l with
  | nil => exact absurd ht (List.not_mem_nil t)
  | cons a ts =>
    have hla : t ≤ a := hlb a (List.mem_cons_self a ts)
    have hlb' : ∀ v ∈ ts, t ≤ v := fun v hv => hlb v (List.mem_cons_of_mem _ hv)
    have hmem : t = a ∨ t ∈ ts := by
      rcases List.mem_cons.mp ht with rfl | h
      · exact Or.inl rfl
      · exact Or.inr h
    show some (ts.foldl min a) = some t
    rw [foldl_min_eq ts a t hmem hla hlb']

/-- A raise time is a termination time. -/
lemma raiseTime_termTime {E : Type} (f : TaskFate E) (u : ℚ)
    (h : f.raiseTime = some u) : f.termTime = some u := by
  cases f with
  | diverges => simp [TaskFate.raiseTime] at h
  | completes s => simp [TaskFate.raiseTime] at h
  | raises e s =>
    simp [TaskFate.raiseTime] at h
    simp [TaskFate.termTime, h]

/-- Mapping every element to `false` gives a replicate. -/
lemma map_false_replicate {α : Type} (l : List α) :
    l.map (fun _ => false) = List.replicate l.length false := by
  induction l with
  | nil => rfl
  | cons a l ih => simp [List.replicate, ih]

/-- C8: among the three stage tasks — none of which ever completes normally,
since production, consumption and watchdog are all unbounded loops — the first
task to terminate (necessarily by raising) ends the supervisor's gather join at
exactly its termination time; the supervisor cancels none of the three tasks;
and after the join ends, `running` is `false`. -/
theorem launcher_join_spec {E : Type} (fates : List (TaskFate E)) (i : ℕ)
    (hlen : fates.length = 3)
    (hnc : ∀ f ∈ fates, f.completeTime = none)
    (hi : i < fates.length) (e : E) (t : ℚ)
    (hit : fates.get ⟨i, hi⟩ = TaskFate.raises e t)
    (hfirst : ∀ f ∈ fates, ∀ u, f.termTime = some u → t ≤ u) :
    (launcher fates).join_ends = some t ∧
    (launcher fates).cancelled = [false, false, false] ∧
    (launcher fates).running = false := by
  have hmem : t ∈ fates.filterMap TaskFate.raiseTime := by
    rw [List.mem_filterMap]
    refine ⟨fates.get ⟨i, hi⟩, List.get_mem fates i hi, ?_⟩
    rw [hit]
    rfl
  have hlb : ∀ v ∈ fates.filterMap TaskFate.raiseTime, t ≤ v := by
    intro v hv
    rw [List.mem_filterMap] at hv
    obtain ⟨f, hf, hfv⟩ := hv
    exact hfirst f hf v (raiseTime_termTime f v hfv)
  have hminT : minTime (fates.filterMap TaskFate.raiseTime) = some t :=
    minTime_eq_some _ t hmem hlb
  have hje : gather_ends fates = some t := by
    unfold gather_ends
    rw [hminT]
  refine ⟨hje, ?_, ?_⟩
  · show fates.map (fun _ => false) = [false, false, false]
    rw [map_false_replicate, hlen]
    rfl
  · show launcher_running_after (gather_ends fates).isSome = false
    rw [hje]
    rfl

/-- The join claim on a concrete fate vector: the watchdog task raises at time
`2` while the other two stages still run; the join ends at `2`, nothing is
cancelled, and `running` ends up `false`. -/
theorem launcher_join_spec_witness :
    (launcher [TaskFate.raises "boom" 2, TaskFate.diverges,
        TaskFate.diverges]).join_ends = some 2 ∧
    (launcher [TaskFate.raises "boom" 2, TaskFate.diverges,
        TaskFate.diverges]).cancelled = [false, false, false] ∧
    (launcher [TaskFate.raises "boom" 2, TaskFate.diverges,
        TaskFate.diverges]).running = false :=
  launcher_join_spec
    [TaskFate.raises "boom" 2, TaskFate.diverges, TaskFate.diverges]
    0 rfl
    (fun f hf => by fin_cases hf <;> rfl)
    (by norm_num) "boom" 2 rfl
    (fun f hf => by
      fin_cases hf
      · intro u h
        simp [TaskFate.termTime] at h
        rw [← h]
      · intro u h
        simp [TaskFate.termTime] at h
      · intro u h
        simp [TaskFate.termTime] at h)

/-- The constructor state of `AioGenConveyor.__init__` plus the two lifecycle
flags: `produce`, `consumers`, the schedule configuration `loop_interval` /
`loop_offset`, and the `running` / `stopped` booleans.  The producer and
consumer callables are opaque, so their types are parameters. -/
structure AioGenConveyor (P C : Type) where
  produce : P
  consumers : List C
  loop_interval : ℚ
  loop_offset : ℚ
  running : Bool
  stopped : Bool

/-- Method `AioGenConveyor.stop`: `self.stopped = True` — the whole method body. -/
def AioGenConveyor.stop {P C : Type} (conv : AioGenConveyor P C) :
    AioGenConveyor P C :=
  { conv with stopped := true }

/-- C10: `stop()` sets `stopped` and changes nothing else — `running`, the
producer reference, the consumer list and the schedule configuration are all
untouched (the delivery queue is local to `launcher` and unreachable from
`stop`) — and `stop()` is idempotent. -/
theorem stop_frame {P C : Type} (conv : AioGenConveyor P C) :
    conv.stop.stopped = true ∧
    conv.stop.running = conv.running ∧
    conv.stop.produce = conv.produce ∧
    conv.stop.consumers = conv.consumers ∧
    conv.stop.loop_interval = conv.loop_interval ∧
    conv.stop.loop_offset = conv.loop_offset ∧
    conv.stop.stop = conv.stop :=
  ⟨rfl, rfl, rfl, rfl, rfl, rfl, rfl⟩
